import Mathlib

/-!
Verification of the qr-file-transfer chunk protocol.

This file gives a shallow embedding, in Lean 4, of the core data
transformations of the qr-file-transfer repository:

* the line-boundary chunker (`qr_enhanced.py`, `QRTransferTool.split_at_line_boundaries`);
* the integrity hashes (`calculate_chunk_hash` / `calculate_file_hash`, SHA-256 based);
* the AES-CBC encrypt/decrypt wrappers (`QRCrypto.encrypt_data` / `decrypt_data`),
  with the external block cipher and key-derivation primitives of the
  `cryptography` library treated as abstract parameters;
* the base64 transport codec (`encode_encrypted_chunk` / `decode_encrypted_chunk`);
* the wire-record framing of `generate_single_qr_chunk` and the regex-based
  parser `parse_chunk_file` of `qr_rebuild_encrypted.py`;
* the reassembly logic of `qr_rebuild_encrypted.reconstruct_file` and of
  `qr_rebuild_verified.py` (`parse_chunk_metadata`, `collect_chunks_from_folder`,
  `validate_file_integrity`, `check_chunk_completeness`, and its `main` flow).

Text is modelled as `List Char` (Python `str`), byte strings as `List Nat`
with every byte below 256.  Python functions that can raise are modelled
with `Option` / `Except`.
-/

/-! ## Basic character and byte utilities -/

/-- ASCII decimal digit, the characters matched by the regex class `\d`
(Python also accepts non-ASCII Unicode decimal digits, which never occur in
the wire records produced by this program). -/
def isAsciiDigit (c : Char) : Bool := 48 ≤ c.toNat && c.toNat ≤ 57

/-- ASCII word character, the characters matched by the regex class `\w`
restricted to ASCII (letters, digits and underscore); the hash fields of the
wire format only ever hold lowercase hex digits. -/
def isWordChar (c : Char) : Bool :=
  isAsciiDigit c || (65 ≤ c.toNat && c.toNat ≤ 90) || (97 ≤ c.toNat && c.toNat ≤ 122) ||
    c.toNat = 95

/-- ASCII whitespace stripped by Python `str.strip()` (Python also strips a
few further Unicode space characters, which never occur in the payloads
handled here). -/
def isPySpace (c : Char) : Bool :=
  c.toNat = 32 || c.toNat = 9 || c.toNat = 10 || c.toNat = 13 || c.toNat = 11 || c.toNat = 12

/-- Python `str.strip()`: remove leading and trailing whitespace. -/
def pythonStrip (s : List Char) : List Char :=
  ((s.dropWhile isPySpace).reverse.dropWhile isPySpace).reverse

/-- Decimal digits of a natural number, via `Nat.toDigits`. -/
def natToDecimal (n : Nat) : List Char := Nat.toDigits 10 n

/-- Python format specifier `{n:02}`: decimal, left padded with zeros to at
least two characters. -/
def pad2 (n : Nat) : List Char :=
  let ds := natToDecimal n
  if ds.length < 2 then '0' :: ds else ds

/-- Numeric value of a string of ASCII decimal digits (Python `int`). -/
def decimalValue (ds : List Char) : Nat :=
  ds.foldl (fun acc c => 10 * acc + (c.toNat - 48)) 0

/-! ## UTF-8 encoding and decoding

Models Python `str.encode('utf-8')` and `bytes.decode('utf-8')`.  Lean
`Char` is a Unicode scalar value, exactly the values a Python `str` may
hold that `encode('utf-8')` accepts. -/

/-- UTF-8 encoding of a single scalar value. -/
def utf8EncodeChar (c : Char) : List Nat :=
  let n := c.toNat
  if n < 128 then [n]
  else if n < 2048 then [192 + n / 64, 128 + n % 64]
  else if n < 65536 then [224 + n / 4096, 128 + n / 64 % 64, 128 + n % 64]
  else [240 + n / 262144, 128 + n / 4096 % 64, 128 + n / 64 % 64, 128 + n % 64]

/-- UTF-8 encoding of a text, `str.encode('utf-8')`. -/
def utf8Encode (s : List Char) : List Nat := (s.map utf8EncodeChar).flatten

/-- Is a byte a UTF-8 continuation byte (`10xxxxxx`)? -/
def isContByte (b : Nat) : Bool := 128 ≤ b && b < 192

/-- Decode one UTF-8 scalar value at the head of a byte stream: rejects
stray continuation bytes, truncated sequences, overlong encodings,
surrogates and out-of-range values, exactly the prefixes Python's strict
`bytes.decode('utf-8')` rejects. -/
def utf8DecodeOne : List Nat → Option (Char × List Nat)
  | [] => none
  | b :: rest =>
    if b < 128 then some (Char.ofNat b, rest)
    else if b < 194 then none
    else
      match rest with
      | [] => none
      | b2 :: rest2 =>
        if b < 224 then
          if isContByte b2 then some (Char.ofNat ((b - 192) * 64 + (b2 - 128)), rest2)
          else none
        else
          match rest2 with
          | [] => none
          | b3 :: rest3 =>
            if b < 240 then
              if isContByte b2 && isContByte b3 then
                let n := (b - 224) * 4096 + (b2 - 128) * 64 + (b3 - 128)
                if 2048 ≤ n ∧ (n < 55296 ∨ 57343 < n) then some (Char.ofNat n, rest3)
                else none
              else none
            else
              match rest3 with
              | [] => none
              | b4 :: rest4 =>
                if b < 245 then
                  if isContByte b2 && isContByte b3 && isContByte b4 then
                    let n := (b - 240) * 262144 + (b2 - 128) * 4096 +
                      (b3 - 128) * 64 + (b4 - 128)
                    if 65536 ≤ n ∧ n < 1114112 then some (Char.ofNat n, rest4)
                    else none
                  else none
                else none

/-- Fuel-driven UTF-8 decoding loop; the fuel only bounds the recursion
depth and any fuel at least the byte count gives the decoder's value. -/
def utf8DecodeAux : Nat → List Nat → Option (List Char)
  | _, [] => some []
  | 0, _ :: _ => none
  | fuel + 1, b :: rest =>
    match utf8DecodeOne (b :: rest) with
    | none => none
    | some (c, rest2) => (utf8DecodeAux fuel rest2).map (fun cs => c :: cs)

/-- Strict UTF-8 decoding, `bytes.decode('utf-8')`; `none` models Python
raising `UnicodeDecodeError`. -/
def utf8Decode (bs : List Nat) : Option (List Char) := utf8DecodeAux bs.length bs

theorem char_ofNat_toNat (c : Char) : Char.ofNat c.toNat = c := by
  unfold Char.ofNat
  rw [dif_pos (show c.toNat.isValidChar from c.valid)]
  apply Char.eq_of_val_eq
  apply UInt32.toNat.inj
  simp [Char.ofNatAux, Char.toNat, UInt32.toNat]

theorem char_toNat_valid (c : Char) :
    c.toNat < 55296 ∨ (57343 < c.toNat ∧ c.toNat < 1114112) := c.valid

/-- Decoding one encoded scalar at the head of a byte stream recovers the
scalar and leaves the remaining bytes untouched. -/
theorem utf8DecodeOne_encodeChar (c : Char) (rest : List Nat) :
    utf8DecodeOne (utf8EncodeChar c ++ rest) = some (c, rest) := by
  have hv := char_toNat_valid c
  unfold utf8EncodeChar
  by_cases h1 : c.toNat < 128
  · simp only [if_pos h1, List.cons_append, List.nil_append, utf8DecodeOne]
    rw [char_ofNat_toNat]
  · by_cases h2 : c.toNat < 2048
    · have ha : ¬ (192 + c.toNat / 64 < 128) := by omega
      have hb : ¬ (192 + c.toNat / 64 < 194) := by omega
      have hc : 192 + c.toNat / 64 < 224 := by omega
      have hd : isContByte (128 + c.toNat % 64) = true := by
        simp only [isContByte, Bool.and_eq_true, decide_eq_true_eq]; omega
      have he : (192 + c.toNat / 64 - 192) * 64 + (128 + c.toNat % 64 - 128) = c.toNat := by
        omega
      simp only [if_neg h1, if_pos h2, List.cons_append, List.nil_append, utf8DecodeOne,
        ha, hb, hc, hd, if_false, if_true, ite_true, ite_false]
      rw [he, char_ofNat_toNat]
    · by_cases h3 : c.toNat < 65536
      · have ha : ¬ (224 + c.toNat / 4096 < 128) := by omega
        have hb : ¬ (224 + c.toNat / 4096 < 194) := by omega
        have hc : ¬ (224 + c.toNat / 4096 < 224) := by omega
        have hd : 224 + c.toNat / 4096 < 240 := by omega
        have hcont : (isContByte (128 + c.toNat / 64 % 64) &&
            isContByte (128 + c.toNat % 64)) = true := by
          simp only [isContByte, Bool.and_eq_true, decide_eq_true_eq]; omega
        have he : (224 + c.toNat / 4096 - 224) * 4096 + (128 + c.toNat / 64 % 64 - 128) * 64 +
            (128 + c.toNat % 64 - 128) = c.toNat := by omega
        have hr : 2048 ≤ (224 + c.toNat / 4096 - 224) * 4096 +
            (128 + c.toNat / 64 % 64 - 128) * 64 + (128 + c.toNat % 64 - 128) ∧
            ((224 + c.toNat / 4096 - 224) * 4096 + (128 + c.toNat / 64 % 64 - 128) * 64 +
              (128 + c.toNat % 64 - 128) < 55296 ∨
             57343 < (224 + c.toNat / 4096 - 224) * 4096 +
              (128 + c.toNat / 64 % 64 - 128) * 64 + (128 + c.toNat % 64 - 128)) := by omega
        simp only [if_neg h1, if_neg h2, if_pos h3, List.cons_append, List.nil_append,
          utf8DecodeOne, ha, hb, hc, hd, hcont, hr, and_self, if_false, if_true, ite_true,
          ite_false]
        rw [he, char_ofNat_toNat]
      · have ha : ¬ (240 + c.toNat / 262144 < 128) := by omega
        have hb : ¬ (240 + c.toNat / 262144 < 194) := by omega
        have hc : ¬ (240 + c.toNat / 262144 < 224) := by omega
        have hd : ¬ (240 + c.toNat / 262144 < 240) := by omega
        have hd2 : 240 + c.toNat / 262144 < 245 := by omega
        have hcont : (isContByte (128 + c.toNat / 4096 % 64) &&
            isContByte (128 + c.toNat / 64 % 64) && isContByte (128 + c.toNat % 64)) = true := by
          simp only [isContByte, Bool.and_eq_true, decide_eq_true_eq]; omega
        have he : (240 + c.toNat / 262144 - 240) * 262144 +
            (128 + c.toNat / 4096 % 64 - 128) * 4096 +
            (128 + c.toNat / 64 % 64 - 128) * 64 + (128 + c.toNat % 64 - 128) = c.toNat := by
          omega
        have hr : 65536 ≤ (240 + c.toNat / 262144 - 240) * 262144 +
            (128 + c.toNat / 4096 % 64 - 128) * 4096 +
            (128 + c.toNat / 64 % 64 - 128) * 64 + (128 + c.toNat % 64 - 128) ∧
            (240 + c.toNat / 262144 - 240) * 262144 +
            (128 + c.toNat / 4096 % 64 - 128) * 4096 +
            (128 + c.toNat / 64 % 64 - 128) * 64 + (128 + c.toNat % 64 - 128) < 1114112 := by
          omega
        simp only [if_neg h1, if_neg h2, if_neg h3, List.cons_append, List.nil_append,
          utf8DecodeOne, ha, hb, hc, hd, hd2, hcont, hr, and_self, if_false, if_true, ite_true,
          ite_false]
        rw [he, char_ofNat_toNat]

theorem utf8EncodeChar_length_pos (c : Char) : 1 ≤ (utf8EncodeChar c).length := by
  simp only [utf8EncodeChar]
  split_ifs <;> simp

theorem utf8DecodeAux_cons (fuel : Nat) (bs : List Nat) (c : Char) (rest2 : List Nat)
    (hb : bs ≠ []) (h : utf8DecodeOne bs = some (c, rest2)) :
    utf8DecodeAux (fuel + 1) bs = (utf8DecodeAux fuel rest2).map (fun cs => c :: cs) := by
  cases bs with
  | nil => exact absurd rfl hb
  | cons b rest => simp only [utf8DecodeAux, h]

theorem utf8DecodeAux_encode (s : List Char) :
    ∀ fuel, (utf8Encode s).length ≤ fuel → utf8DecodeAux fuel (utf8Encode s) = some s := by
  induction s with
  | nil => intro fuel _; cases fuel <;> rfl
  | cons c cs ih =>
    intro fuel hf
    have hs : utf8Encode (c :: cs) = utf8EncodeChar c ++ utf8Encode cs := by
      simp [utf8Encode]
    have hlen : 1 ≤ (utf8EncodeChar c).length := utf8EncodeChar_length_pos c
    cases fuel with
    | zero =>
      rw [hs] at hf
      simp only [List.length_append] at hf
      omega
    | succ f =>
      rw [hs]
      rw [utf8DecodeAux_cons f _ c (utf8Encode cs)
        (by
          cases he : utf8EncodeChar c with
          | nil => rw [he] at hlen; simp at hlen
          | cons x xs => simp)
        (utf8DecodeOne_encodeChar c (utf8Encode cs))]
      rw [hs] at hf
      simp only [List.length_append] at hf
      rw [ih f (by omega)]
      rfl

/-- UTF-8 round trip: decoding an encoded text recovers the text. -/
theorem utf8Decode_utf8Encode (s : List Char) : utf8Decode (utf8Encode s) = some s :=
  utf8DecodeAux_encode s (utf8Encode s).length le_rfl

/-! ## SHA-256

A pure executable SHA-256 (FIPS 180-4) over byte lists, 32-bit words as
`Nat` reduced modulo `2 ^ 32`.  This embeds Python's `hashlib.sha256`,
used by `calculate_chunk_hash` and `calculate_file_hash`. -/

def w32 : Nat := 4294967296

def add32 (a b : Nat) : Nat := (a + b) % w32

def rotr32 (x n : Nat) : Nat := ((x >>> n) ||| (x <<< (32 - n))) % w32

def shr32 (x n : Nat) : Nat := x >>> n

def xor3 (a b c : Nat) : Nat := Nat.xor (Nat.xor a b) c

/-- Bitwise complement on 32-bit values below `2 ^ 32`. -/
def not32 (x : Nat) : Nat := w32 - 1 - x

/-- The eight working variables of the SHA-256 compression function. -/
structure Sha256State where
  a : Nat
  b : Nat
  c : Nat
  d : Nat
  e : Nat
  f : Nat
  g : Nat
  h : Nat

def sha256Init : Sha256State :=
  ⟨1779033703, 3144134277, 1013904242, 2773480762,
   1359893119, 2600822924, 528734635, 1541459225⟩

/-- The 64 SHA-256 round constants. -/
def sha256K : List Nat :=
  [1116352408, 1899447441, 3049323471, 3921009573,
   961987163, 1508970993, 2453635748, 2870763221,
   3624381080, 310598401, 607225278, 1426881987,
   1925078388, 2162078206, 2614888103, 3248222580,
   3835390401, 4022224774, 264347078, 604807628,
   770255983, 1249150122, 1555081692, 1996064986,
   2554220882, 2821834349, 2952996808, 3210313671,
   3336571891, 3584528711, 113926993, 338241895,
   666307205, 773529912, 1294757372, 1396182291,
   1695183700, 1986661051, 2177026350, 2456956037,
   2730485921, 2820302411, 3259730800, 3345764771,
   3516065817, 3600352804, 4094571909, 275423344,
   430227734, 506948616, 659060556, 883997877,
   958139571, 1322822218, 1537002063, 1747873779,
   1955562222, 2024104815, 2227730452, 2361852424,
   2428436474, 2756734187, 3204031479, 3329325298]

def bsig0 (x : Nat) : Nat := xor3 (rotr32 x 2) (rotr32 x 13) (rotr32 x 22)

def bsig1 (x : Nat) : Nat := xor3 (rotr32 x 6) (rotr32 x 11) (rotr32 x 25)

def ssig0 (x : Nat) : Nat := xor3 (rotr32 x 7) (rotr32 x 18) (shr32 x 3)

def ssig1 (x : Nat) : Nat := xor3 (rotr32 x 17) (rotr32 x 19) (shr32 x 10)

def ch32 (x y z : Nat) : Nat := Nat.xor (Nat.land x y) (Nat.land (not32 x) z)

def maj32 (x y z : Nat) : Nat := xor3 (Nat.land x y) (Nat.land x z) (Nat.land y z)

/-- Extend the 16 message words of a block to the 64 schedule words. -/
def sha256Extend : Nat → List Nat → List Nat
  | 0, acc => acc
  | n + 1, acc =>
    let i := acc.length
    let w := add32 (add32 (ssig1 (acc.getD (i - 2) 0)) (acc.getD (i - 7) 0))
                   (add32 (ssig0 (acc.getD (i - 15) 0)) (acc.getD (i - 16) 0))
    sha256Extend n (acc ++ [w])

/-- One round of the compression function, consuming one (constant, word)
pair. -/
def sha256Round (s : Sha256State) (kw : Nat × Nat) : Sha256State :=
  let t1 := add32 (add32 (add32 s.h (bsig1 s.e)) (add32 (ch32 s.e s.f s.g) kw.1)) kw.2
  let t2 := add32 (bsig0 s.a) (maj32 s.a s.b s.c)
  ⟨add32 t1 t2, s.a, s.b, s.c, add32 s.d t1, s.e, s.f, s.g⟩

def sha256Compress (s : Sha256State) (block : List Nat) : Sha256State :=
  let ws := sha256Extend 48 block
  let t := (sha256K.zip ws).foldl sha256Round s
  ⟨add32 s.a t.a, add32 s.b t.b, add32 s.c t.c, add32 s.d t.d,
   add32 s.e t.e, add32 s.f t.f, add32 s.g t.g, add32 s.h t.h⟩

/-- Group bytes into big-endian 32-bit words (4 bytes per word). -/
def bytesToWords : List Nat → List Nat
  | b0 :: b1 :: b2 :: b3 :: rest => (b0 * 16777216 + b1 * 65536 + b2 * 256 + b3) :: bytesToWords rest
  | _ => []

/-- Split a word list into blocks of 16 words. -/
def wordBlocks : List Nat → List (List Nat)
  | w0 :: w1 :: w2 :: w3 :: w4 :: w5 :: w6 :: w7 ::
    w8 :: w9 :: w10 :: w11 :: w12 :: w13 :: w14 :: w15 :: rest =>
      [w0, w1, w2, w3, w4, w5, w6, w7, w8, w9, w10, w11, w12, w13, w14, w15] :: wordBlocks rest
  | _ => []

/-- SHA-256 message padding: `0x80`, zeros, then the 64-bit big-endian bit
length, to a multiple of 64 bytes. -/
def sha256Pad (msg : List Nat) : List Nat :=
  let len := msg.length
  let zeros := (55 + 64 - len % 64) % 64
  let bitLen := len * 8
  msg ++ [0x80] ++ List.replicate zeros 0 ++
    [bitLen / 2 ^ 56 % 256, bitLen / 2 ^ 48 % 256, bitLen / 2 ^ 40 % 256, bitLen / 2 ^ 32 % 256,
     bitLen / 2 ^ 24 % 256, bitLen / 2 ^ 16 % 256, bitLen / 2 ^ 8 % 256, bitLen % 256]

/-- Big-endian byte serialization of a 32-bit word. -/
def word2bytes (x : Nat) : List Nat := [x / 16777216 % 256, x / 65536 % 256, x / 256 % 256, x % 256]

/-- The 32-byte SHA-256 digest of a byte string (`hashlib.sha256(..).digest()`). -/
def sha256 (msg : List Nat) : List Nat :=
  let blocks := wordBlocks (bytesToWords (sha256Pad msg))
  let s := blocks.foldl sha256Compress sha256Init
  word2bytes s.a ++ word2bytes s.b ++ word2bytes s.c ++ word2bytes s.d ++
  word2bytes s.e ++ word2bytes s.f ++ word2bytes s.g ++ word2bytes s.h

/-- Lowercase hexadecimal digit for a value below 16. -/
def hexChar (n : Nat) : Char :=
  if n < 10 then Char.ofNat (48 + n) else Char.ofNat (87 + n)

def byteToHex (b : Nat) : List Char := [hexChar (b / 16), hexChar (b % 16)]

/-- The 64-character lowercase hex digest (`hashlib.sha256(..).hexdigest()`). -/
def sha256hex (msg : List Nat) : List Char := ((sha256 msg).map byteToHex).flatten

/-- Lowercase hexadecimal digit characters `0`-`9`, `a`-`f`. -/
def isHexDigit (c : Char) : Bool :=
  (48 ≤ c.toNat && c.toNat ≤ 57) || (97 ≤ c.toNat && c.toNat ≤ 102)

set_option maxRecDepth 100000 in
/-- FIPS 180-4 test vector: the digest of `"abc"`. -/
theorem sha256hex_abc : sha256hex [97, 98, 99] =
    "ba7816bf8f01cfea414140de5dae2223b00361a396177a9cb410ff61f20015ad".toList := by decide

set_option maxRecDepth 100000 in
/-- Test vector: the digest of the empty message. -/
theorem sha256hex_nil : sha256hex [] =
    "e3b0c44298fc1c149afbf4c8996fb92427ae41e4649b934ca495991b7852b855".toList := by decide

theorem sha256_length (msg : List Nat) : (sha256 msg).length = 32 := by
  simp [sha256, word2bytes]

theorem length_flatten_byteToHex (l : List Nat) :
    ((l.map byteToHex).flatten).length = 2 * l.length := by
  induction l with
  | nil => rfl
  | cons b bs ih => simp [byteToHex, ih]; omega

theorem sha256hex_length (msg : List Nat) : (sha256hex msg).length = 64 := by
  unfold sha256hex
  rw [length_flatten_byteToHex, sha256_length]

theorem sha256_bytes_lt (msg : List Nat) : ∀ b ∈ sha256 msg, b < 256 := by
  intro b hb
  simp only [sha256, word2bytes, List.mem_append, List.mem_cons, List.not_mem_nil,
    or_false] at hb
  omega

theorem isHexDigit_hexChar {n : Nat} (h : n < 16) : isHexDigit (hexChar n) = true := by
  have : ∀ m, m < 16 → isHexDigit (hexChar m) = true := by decide
  exact this n h

theorem sha256hex_all_hex (msg : List Nat) : ∀ c ∈ sha256hex msg, isHexDigit c = true := by
  intro c hc
  simp only [sha256hex, List.mem_flatten, List.mem_map] at hc
  obtain ⟨l, ⟨b, hb, rfl⟩, hcl⟩ := hc
  have hlt : b < 256 := sha256_bytes_lt msg b hb
  simp only [byteToHex, List.mem_cons, List.not_mem_nil, or_false] at hcl
  rcases hcl with rfl | rfl
  · exact isHexDigit_hexChar (by omega)
  · exact isHexDigit_hexChar (Nat.mod_lt _ (by omega))

/-! ## The integrity hashes of the tool

`calculate_chunk_hash` and `calculate_file_hash` appear identically in
`qr_enhanced.py`, `qr_rebuild_encrypted.py` and `qr_rebuild_verified.py`:
the SHA-256 hex digest of the UTF-8 encoded text, truncated to its first
16 characters for chunks. -/

/-- Source: `hashlib.sha256(content.encode('utf-8')).hexdigest()[:16]`. -/
def calculate_chunk_hash (chunk_content : List Char) : List Char :=
  (sha256hex (utf8Encode chunk_content)).take 16

/-- Source: `hashlib.sha256(content.encode('utf-8')).hexdigest()`. -/
def calculate_file_hash (content : List Char) : List Char :=
  sha256hex (utf8Encode content)

theorem calculate_chunk_hash_length (s : List Char) : (calculate_chunk_hash s).length = 16 := by
  simp [calculate_chunk_hash, sha256hex_length]

theorem calculate_file_hash_length (s : List Char) : (calculate_file_hash s).length = 64 := by
  simp [calculate_file_hash, sha256hex_length]

/-! ## The chunker

`QRTransferTool.split_at_line_boundaries` of `qr_enhanced.py`: split the
text into lines keeping the terminators (Python
`str.splitlines(keepends=True)`), then accumulate lines greedily, flushing
the accumulator whenever appending the next line would push its UTF-8 byte
length over the cap and the accumulator is non-empty. -/

/-- The line-terminator characters of Python `str.splitlines`: LF, CR, VT,
FF, FS, GS, RS, NEL, LINE SEPARATOR and PARAGRAPH SEPARATOR (with CRLF
treated as a single terminator by `splitlinesAux`). -/
def isLineBreakChar (c : Char) : Bool :=
  c.toNat = 10 || c.toNat = 13 || c.toNat = 11 || c.toNat = 12 || c.toNat = 28 ||
    c.toNat = 29 || c.toNat = 30 || c.toNat = 133 || c.toNat = 8232 || c.toNat = 8233

/-- Python `str.splitlines(keepends=True)`: `acc` holds the scanned prefix
of the current line in reverse. -/
def splitlinesAux : List Char → List Char → List (List Char)
  | [], acc => if acc.isEmpty then [] else [acc.reverse]
  | '\r' :: '\n' :: rest2, acc => (acc.reverse ++ ['\r', '\n']) :: splitlinesAux rest2 []
  | c :: rest, acc =>
    if isLineBreakChar c then (acc.reverse ++ [c]) :: splitlinesAux rest []
    else splitlinesAux rest (c :: acc)

def splitlines (s : List Char) : List (List Char) := splitlinesAux s []

/-- Concatenating the kept-ends lines restores the input. -/
theorem splitlinesAux_flatten : ∀ (s acc : List Char),
    (splitlinesAux s acc).flatten = acc.reverse ++ s := by
  intro s acc
  induction s, acc using splitlinesAux.induct with
  | case1 acc h => simp [splitlinesAux, h, List.isEmpty_iff.mp h]
  | case2 acc h => simp [splitlinesAux, h]
  | case3 rest2 acc ih => simp_all [splitlinesAux]
  | case4 c rest acc hne hlb ih => simp_all [splitlinesAux]
  | case5 c rest acc hne hlb ih => simp_all [splitlinesAux]

theorem splitlines_flatten (s : List Char) : (splitlines s).flatten = s := by
  simp [splitlines, splitlinesAux_flatten]

/-- The line-accumulation loop of `split_at_line_boundaries`: for each
line, flush the accumulator first when appending the line would exceed
`max_chunk_size` UTF-8 bytes and the accumulator is non-empty. -/
def chunkAccumulate (max_chunk_size : Nat) : List (List Char) → List Char → List (List Char)
  | [], current => if current.isEmpty then [] else [current]
  | line :: rest, current =>
    if max_chunk_size < (utf8Encode current).length + (utf8Encode line).length ∧
        ¬ current.isEmpty then
      current :: chunkAccumulate max_chunk_size rest line
    else
      chunkAccumulate max_chunk_size rest (current ++ line)

/-- Embeds `QRTransferTool.split_at_line_boundaries(data, max_chunk_size)`
(`qr_enhanced.py`); the streaming variant for very large inputs applies
the same policy line by line. -/
def split_at_line_boundaries (data : List Char) (max_chunk_size : Nat) : List (List Char) :=
  chunkAccumulate max_chunk_size (splitlines data) []

/-- Source: `MAX_CHUNK_SIZE = int(MAX_QR_BYTES * SAFETY_MARGIN) = int(2953 * 0.8)`. -/
def MAX_CHUNK_SIZE : Nat := 2362

theorem chunkAccumulate_flatten (m : Nat) :
    ∀ (lines : List (List Char)) (current : List Char),
    (chunkAccumulate m lines current).flatten = current ++ lines.flatten := by
  intro lines
  induction lines with
  | nil =>
    intro current
    by_cases h : current.isEmpty
    · simp [chunkAccumulate, h, List.isEmpty_iff.mp h]
    · simp [chunkAccumulate, h]
  | cons line rest ih =>
    intro current
    by_cases h : m < (utf8Encode current).length + (utf8Encode line).length ∧
        ¬ current = []
    · simp [chunkAccumulate, List.isEmpty_iff, h, ih]
    · simp [chunkAccumulate, List.isEmpty_iff, h, ih]

/-! ## Base64

Models `base64.b64encode` / `base64.b64decode` on canonical inputs; the
decoder is strict (the canonical encodings produced by `b64encode` are
decoded identically by Python). -/

def b64Alphabet : List Char :=
  "ABCDEFGHIJKLMNOPQRSTUVWXYZabcdefghijklmnopqrstuvwxyz0123456789+/".toList

def b64Char (n : Nat) : Char := b64Alphabet.getD n '?'

def b64CharVal (c : Char) : Option Nat := b64Alphabet.findIdx? (fun x => x = c)

def b64encode : List Nat → List Char
  | [] => []
  | [a] => [b64Char (a / 4), b64Char (a % 4 * 16), '=', '=']
  | [a, b] => [b64Char (a / 4), b64Char (a % 4 * 16 + b / 16), b64Char (b % 16 * 4), '=']
  | a :: b :: c :: rest =>
    b64Char (a / 4) :: b64Char (a % 4 * 16 + b / 16) :: b64Char (b % 16 * 4 + c / 64) ::
      b64Char (c % 64) :: b64encode rest

def b64decode : List Char → Option (List Nat)
  | [] => some []
  | c1 :: c2 :: c3 :: c4 :: rest =>
    if c3 = '=' ∧ c4 = '=' ∧ rest = [] then
      match b64CharVal c1, b64CharVal c2 with
      | some a, some b => some [a * 4 + b / 16]
      | _, _ => none
    else if c4 = '=' ∧ rest = [] then
      match b64CharVal c1, b64CharVal c2, b64CharVal c3 with
      | some a, some b, some c => some [a * 4 + b / 16, b % 16 * 16 + c / 4]
      | _, _, _ => none
    else
      match b64CharVal c1, b64CharVal c2, b64CharVal c3, b64CharVal c4 with
      | some a, some b, some c, some d =>
        (b64decode rest).map
          (fun bs => (a * 4 + b / 16) :: (b % 16 * 16 + c / 4) :: (c % 4 * 64 + d) :: bs)
      | _, _, _, _ => none
  | _ => none

theorem b64CharVal_b64Char : ∀ n, n < 64 → b64CharVal (b64Char n) = some n := by decide

theorem b64Char_ne_pad : ∀ n, n < 64 → ¬ b64Char n = '=' := by decide

/-- Base64 round trip on byte strings. -/
theorem b64decode_b64encode : ∀ (bs : List Nat), (∀ x ∈ bs, x < 256) →
    b64decode (b64encode bs) = some bs := by
  intro bs
  induction bs using b64encode.induct with
  | case1 => intro _; rfl
  | case2 a =>
    intro hlt
    have ha : a < 256 := hlt a (by simp)
    simp only [b64encode, b64decode, and_true, if_pos rfl, true_and, if_pos (And.intro rfl rfl)]
    rw [b64CharVal_b64Char _ (by omega), b64CharVal_b64Char _ (by omega)]
    show some [a / 4 * 4 + a % 4 * 16 / 16] = some [a]
    have h1 : a / 4 * 4 + a % 4 * 16 / 16 = a := by omega
    rw [h1]
  | case3 a b =>
    intro hlt
    have ha : a < 256 := hlt a (by simp)
    have hb : b < 256 := hlt b (by simp)
    have h3 : ¬ b64Char (b % 16 * 4) = '=' := b64Char_ne_pad _ (by omega)
    simp only [b64encode, b64decode, h3, false_and, and_false, if_false, and_true, if_pos rfl,
      true_and, if_pos (And.intro rfl rfl), ite_false]
    rw [b64CharVal_b64Char _ (by omega), b64CharVal_b64Char _ (by omega),
      b64CharVal_b64Char _ (by omega)]
    show some [a / 4 * 4 + (a % 4 * 16 + b / 16) / 16,
      (a % 4 * 16 + b / 16) % 16 * 16 + b % 16 * 4 / 4] = some [a, b]
    have h1 : a / 4 * 4 + (a % 4 * 16 + b / 16) / 16 = a := by omega
    have h2 : (a % 4 * 16 + b / 16) % 16 * 16 + b % 16 * 4 / 4 = b := by omega
    rw [h1, h2]
  | case4 a b c rest ih =>
    intro hlt
    have ha : a < 256 := hlt a (by simp)
    have hb : b < 256 := hlt b (by simp)
    have hc : c < 256 := hlt c (by simp)
    have h3 : ¬ b64Char (b % 16 * 4 + c / 64) = '=' := b64Char_ne_pad _ (by omega)
    have h4 : ¬ b64Char (c % 64) = '=' := b64Char_ne_pad _ (by omega)
    have hrest : ∀ x ∈ rest, x < 256 := by
      intro x hx; exact hlt x (by simp [hx])
    simp only [b64encode, b64decode, h3, h4, false_and, and_false, if_false, ite_false]
    rw [b64CharVal_b64Char _ (by omega), b64CharVal_b64Char _ (by omega),
      b64CharVal_b64Char _ (by omega), b64CharVal_b64Char _ (by omega), ih hrest]
    show some ((a / 4 * 4 + (a % 4 * 16 + b / 16) / 16) ::
      ((a % 4 * 16 + b / 16) % 16 * 16 + (b % 16 * 4 + c / 64) / 4) ::
      ((b % 16 * 4 + c / 64) % 4 * 64 + c % 64) :: rest) = some (a :: b :: c :: rest)
    have h1 : a / 4 * 4 + (a % 4 * 16 + b / 16) / 16 = a := by omega
    have h2 : (a % 4 * 16 + b / 16) % 16 * 16 + (b % 16 * 4 + c / 64) / 4 = b := by omega
    have h5 : (b % 16 * 4 + c / 64) % 4 * 64 + c % 64 = c := by omega
    rw [h1, h2, h5]

/-! ## The transport codec for encrypted chunks

`QRCrypto.encode_encrypted_chunk` (`qr_enhanced.py`) concatenates
`salt(16) || iv(16) || ciphertext` and base64-encodes the result.  Both
`QRCrypto.decode_encrypted_chunk` (`qr_enhanced.py`, no length validation)
and `QRDecryption.decode_encrypted_chunk` (`qr_rebuild_encrypted.py`,
rejects decoded input shorter than 32 bytes) are embedded. -/

namespace QRCrypto

/-- Source: `base64.b64encode(salt + iv + encrypted_data)` as ASCII text. -/
def encode_encrypted_chunk (encrypted_data salt iv : List Nat) : List Char :=
  b64encode (salt ++ iv ++ encrypted_data)

/-- The `qr_enhanced.py` decoding: slices the decoded bytes with no length
check; returns `(encrypted_data, salt, iv)`. -/
def decode_encrypted_chunk (encoded_data : List Char) :
    Option (List Nat × List Nat × List Nat) :=
  match b64decode encoded_data with
  | none => none
  | some combined => some (combined.drop 32, combined.take 16, (combined.drop 16).take 16)

end QRCrypto

namespace QRDecryption

/-- The `qr_rebuild_encrypted.py` decoding: raises `ValueError` (modelled as
`none`) when the decoded input holds fewer than 32 bytes; returns
`(encrypted_data, salt, iv)`. -/
def decode_encrypted_chunk (encoded_data : List Char) :
    Option (List Nat × List Nat × List Nat) :=
  match b64decode encoded_data with
  | none => none
  | some combined =>
    if combined.length < 32 then none
    else some (combined.drop 32, combined.take 16, (combined.drop 16).take 16)

end QRDecryption

/-! ## Encryption and decryption wrappers

`QRCrypto.encrypt_data` / `decrypt_data` (`qr_enhanced.py`, duplicated as
`QRDecryption.decrypt_data` in `qr_rebuild_encrypted.py`).  The
`cryptography` library's PBKDF2-HMAC-SHA256 key derivation and the
AES-256-CBC cipher transform are external primitives (out of scope per the
spec); they enter the embedding as an abstract `CryptoPrimitives`
structure, and the inverse property of CBC decryption is an explicit
hypothesis where a theorem needs it.  The `secrets.token_bytes(16)` draws
for salt and iv are modelled as arguments. -/

structure CryptoPrimitives where
  deriveKey : List Char → List Nat → List Nat
  aesCbcEncrypt : List Nat → List Nat → List Nat → List Nat
  aesCbcDecrypt : List Nat → List Nat → List Nat → List Nat

/-- The cipher contract: decrypting with the same key and iv undoes
encryption (AES-CBC satisfies this for 16-byte-multiple inputs, and
`encrypt_data` only ever feeds it PKCS7-padded data). -/
def CipherInverts (P : CryptoPrimitives) : Prop :=
  ∀ key iv data, P.aesCbcDecrypt key iv (P.aesCbcEncrypt key iv data) = data

/-- The cipher transform of an empty input is empty (AES-CBC `update` plus
`finalize` of zero blocks yields zero bytes). -/
def CipherNilToNil (P : CryptoPrimitives) : Prop :=
  ∀ key iv, P.aesCbcDecrypt key iv [] = []

/-- The PKCS7 padding step of `encrypt_data`:
`padding_length = 16 - (len(data_bytes) % 16)` bytes, each holding that
length, appended to the data. -/
def pkcs7Pad (data_bytes : List Nat) : List Nat :=
  let padding_length := 16 - data_bytes.length % 16
  data_bytes ++ List.replicate padding_length padding_length

/-- Embeds `QRCrypto.encrypt_data(data, password)` with the two random draws made
explicit; returns `(encrypted_data, salt, iv)`. -/
def encrypt_data (P : CryptoPrimitives) (data password : List Char) (salt iv : List Nat) :
    List Nat × List Nat × List Nat :=
  let key := P.deriveKey password salt
  let padded_data := pkcs7Pad (utf8Encode data)
  (P.aesCbcEncrypt key iv padded_data, salt, iv)

/-- Embeds `QRCrypto.decrypt_data(encrypted_data, salt, iv, password)`:
`none` models the Python exceptions (IndexError reading the final byte of
an empty buffer, or UnicodeDecodeError).  `padded_data[:-padding_length]`
is empty when `padding_length` is zero or at least the buffer length. -/
def decrypt_data (P : CryptoPrimitives) (encrypted_data salt iv : List Nat)
    (password : List Char) : Option (List Char) :=
  let key := P.deriveKey password salt
  let padded_data := P.aesCbcDecrypt key iv encrypted_data
  match padded_data.getLast? with
  | none => none
  | some padding_length =>
    let data_bytes :=
      if padding_length = 0 then []
      else padded_data.take (padded_data.length - padding_length)
    utf8Decode data_bytes

theorem getLast?_append_replicate (bs : List Nat) (p : Nat) (hp : 0 < p) :
    (bs ++ List.replicate p p).getLast? = some p := by
  rw [← List.head?_reverse, List.reverse_append, List.reverse_replicate]
  cases p with
  | zero => omega
  | succ k => simp [List.replicate_succ]

/-- Stripping the PKCS7 padding added by `pkcs7Pad` recovers the data. -/
theorem pkcs7_unpad_pad (data_bytes : List Nat) :
    (pkcs7Pad data_bytes).getLast? = some (16 - data_bytes.length % 16) ∧
    (pkcs7Pad data_bytes).take
      ((pkcs7Pad data_bytes).length - (16 - data_bytes.length % 16)) = data_bytes := by
  have hp : 0 < 16 - data_bytes.length % 16 := by omega
  constructor
  · exact getLast?_append_replicate data_bytes _ hp
  · simp only [pkcs7Pad, List.length_append, List.length_replicate]
    have h1 : data_bytes.length + (16 - data_bytes.length % 16) - (16 - data_bytes.length % 16)
        = data_bytes.length := by omega
    rw [h1, List.take_left]

/-- The padded buffer always has positive length, a multiple of 16. -/
theorem pkcs7Pad_length (data_bytes : List Nat) :
    (pkcs7Pad data_bytes).length % 16 = 0 ∧ pkcs7Pad data_bytes ≠ [] := by
  have hlen : (pkcs7Pad data_bytes).length
      = data_bytes.length + (16 - data_bytes.length % 16) := by
    simp [pkcs7Pad]
  constructor
  · rw [hlen]; omega
  · intro h
    have hc := congrArg List.length h
    rw [hlen] at hc
    simp at hc
    omega

/-- Decrypting the output of `encrypt_data` with the same password and the
returned salt and iv recovers the plaintext, for any cipher primitive
satisfying the CBC inverse contract. -/
theorem decrypt_encrypt_data (P : CryptoPrimitives) (hP : CipherInverts P)
    (data password : List Char) (salt iv : List Nat) :
    decrypt_data P (encrypt_data P data password salt iv).1
      (encrypt_data P data password salt iv).2.1
      (encrypt_data P data password salt iv).2.2 password = some data := by
  have hpad := pkcs7_unpad_pad (utf8Encode data)
  have hp : 0 < 16 - (utf8Encode data).length % 16 := by omega
  unfold decrypt_data encrypt_data
  simp only [hP (P.deriveKey password salt) iv (pkcs7Pad (utf8Encode data))]
  rw [hpad.1]
  simp only [if_neg (by omega : ¬ (16 - (utf8Encode data).length % 16 = 0))]
  rw [hpad.2]
  exact utf8Decode_utf8Encode data

/-! ## Wire records and framing

`generate_single_qr_chunk` (`qr_enhanced.py`) frames a chunk as
`header + body + footer` — with no newline of its own between the body and
the footer. -/

/-- A parsed wire record, the dict returned by `parse_chunk_file`. -/
structure ChunkRecord where
  part_num : Nat
  total_parts : Nat
  filename : List Char
  chunk_hash : List Char
  file_hash : List Char
  content : List Char
  encrypted : Bool
deriving DecidableEq

def makeHeader (i total : Nat) (filename chunk_hash file_hash : List Char) : List Char :=
  "--BEGIN part_".toList ++ pad2 i ++ "_of_".toList ++ pad2 total ++ " file: ".toList ++
    filename ++ " chunk_hash: ".toList ++ chunk_hash ++ " file_hash: ".toList ++ file_hash ++
    "--\n".toList

def makeFooter (i : Nat) : List Char := "--END part_".toList ++ pad2 i ++ "--".toList

def makeEncHeader (i total : Nat) (filename chunk_hash file_hash : List Char) : List Char :=
  "--BEGIN ENCRYPTED part_".toList ++ pad2 i ++ "_of_".toList ++ pad2 total ++
    " file: ".toList ++ filename ++ " chunk_hash: ".toList ++ chunk_hash ++
    " file_hash: ".toList ++ file_hash ++ "--\n".toList

def makeEncFooter (i : Nat) : List Char := "--END ENCRYPTED part_".toList ++ pad2 i ++ "--".toList

/-- Cipher primitives that keep the padded data unchanged; they satisfy
both cipher contracts and serve to instantiate unencrypted runs, where the
source never touches the cipher. -/
def idPrimitives : CryptoPrimitives :=
  ⟨fun _ _ => [], fun _ _ d => d, fun _ _ d => d⟩

/-- Embeds `generate_single_qr_chunk(chunk_data)` restricted to its payload
construction: returns `(payload, chunk_hash)`.  The QR image rendering
around it is out of scope.  In both branches `chunk_hash` is
`calculate_chunk_hash(chunk)`, the hash of the plaintext chunk. -/
def generate_single_qr_chunk (encrypt : Bool) (P : CryptoPrimitives) (password : List Char)
    (salt iv : List Nat) (i : Nat) (chunk filename : List Char) (total_parts : Nat)
    (file_hash : List Char) : List Char × List Char :=
  if encrypt then
    let encrypted_data := (encrypt_data P chunk password salt iv).1
    let encoded_chunk := QRCrypto.encode_encrypted_chunk encrypted_data salt iv
    let chunk_hash := calculate_chunk_hash chunk
    (makeEncHeader i total_parts filename chunk_hash file_hash ++ encoded_chunk ++
      makeEncFooter i, chunk_hash)
  else
    let chunk_hash := calculate_chunk_hash chunk
    (makeHeader i total_parts filename chunk_hash file_hash ++ chunk ++ makeFooter i, chunk_hash)

/-! ## The regex engine of the parser

`parse_chunk_file` (`qr_rebuild_encrypted.py`) extracts fields with
`re.search` in DOTALL mode.  The two patterns used are sequences of
literals, greedy `(\d+)` and `(\w+)` groups (each followed by a literal
its character class cannot match, so the maximal run is exact), and
non-greedy `(.+?)` groups.  `rxRun` is a backtracking matcher for this
pattern class: non-greedy groups try the shortest extension first and
backtrack through the continuation, and `rxSearch` tries match start
positions left to right — the semantics of `re.search`.  The explicit fuel
only bounds the recursion depth: every step consumes one unit while
`patterns.length + input.length` strictly decreases, so the initial fuel
supplied by `rxMatch` is never exhausted. -/

inductive RePat where
  | lit (s : List Char)
  | digits
  | word
  | lazyAny
deriving DecidableEq

/-- One backtracking matcher step.  `lazyMode = false`: match the pattern
list against `s` (`taken` is ignored).  `lazyMode = true`: a `(.+?)` group
has consumed `taken` so far and tries to stop as early as possible. -/
def rxRun : Nat → Bool → List RePat → List Char → List Char →
    Option (List (List Char) × List Char)
  | 0, _, _, _, _ => none
  | _ + 1, false, [], _, s => some ([], s)
  | fuel + 1, false, .lit l :: ps, _, s =>
    if l.isPrefixOf s then rxRun fuel false ps [] (s.drop l.length) else none
  | fuel + 1, false, .digits :: ps, _, s =>
    let run := s.takeWhile isAsciiDigit
    if run.isEmpty then none
    else (rxRun fuel false ps [] (s.drop run.length)).map (fun g => (run :: g.1, g.2))
  | fuel + 1, false, .word :: ps, _, s =>
    let run := s.takeWhile isWordChar
    if run.isEmpty then none
    else (rxRun fuel false ps [] (s.drop run.length)).map (fun g => (run :: g.1, g.2))
  | fuel + 1, false, .lazyAny :: ps, _, s => rxRun fuel true ps [] s
  | _ + 1, true, _, _, [] => none
  | fuel + 1, true, ps, taken, c :: rest =>
    match rxRun fuel false ps [] rest with
    | some (gs, r) => some ((taken ++ [c]) :: gs, r)
    | none => rxRun fuel true ps (taken ++ [c]) rest

/-- Anchored match of a pattern list at the start of `s`, returning the
captured groups in order. -/
def rxMatch (pats : List RePat) (s : List Char) : Option (List (List Char) × List Char) :=
  rxRun (pats.length + s.length + 1) false pats [] s

/-- Models `re.search`: try the match at each start position, left to right. -/
def rxSearch (pats : List RePat) : List Char → Option (List (List Char))
  | [] =>
    match rxMatch pats [] with
    | some (gs, _) => some gs
    | none => none
  | c :: rest =>
    match rxMatch pats (c :: rest) with
    | some (gs, _) => some gs
    | none => rxSearch pats rest

/-- The unencrypted record pattern of `parse_chunk_file`:
`--BEGIN part_(\d+)_of_(\d+) file: (.+?) chunk_hash: (\w+) file_hash: (\w+)--\n(.+?)\n--END part_(\d+)--`. -/
def plainPats : List RePat :=
  [.lit "--BEGIN part_".toList, .digits, .lit "_of_".toList, .digits, .lit " file: ".toList,
   .lazyAny, .lit " chunk_hash: ".toList, .word, .lit " file_hash: ".toList, .word,
   .lit "--\n".toList, .lazyAny, .lit "\n--END part_".toList, .digits, .lit "--".toList]

/-- The encrypted record pattern of `parse_chunk_file`. -/
def encryptedPats : List RePat :=
  [.lit "--BEGIN ENCRYPTED part_".toList, .digits, .lit "_of_".toList, .digits,
   .lit " file: ".toList, .lazyAny, .lit " chunk_hash: ".toList, .word,
   .lit " file_hash: ".toList, .word, .lit "--\n".toList, .lazyAny,
   .lit "\n--END ENCRYPTED part_".toList, .digits, .lit "--".toList]

/-- The failure modes of `parse_chunk_file`, each a `ValueError` in the
source. -/
inductive ParseErr where
  | encryptedNoPassword
  | decryptFailed
  | partMismatch
  | integrityFailed
  | invalidFormat
deriving DecidableEq

/-- Embeds `parse_chunk_file(file_path, password, decryption)`
(`qr_rebuild_encrypted.py`): strip the file content, try the encrypted
pattern (requiring a password, base64-decoding, decrypting, and checking
the plaintext hash), else the plain pattern (checking header/footer part
agreement, then the body hash against the declared `chunk_hash`). -/
def parse_chunk_file (P : CryptoPrimitives) (password : Option (List Char))
    (file_content : List Char) : Except ParseErr ChunkRecord :=
  let content := pythonStrip file_content
  match rxSearch encryptedPats content with
  | some gs =>
    match gs with
    | [g1, g2, g3, g4, g5, g6, g7] =>
      match password with
      | none => .error .encryptedNoPassword
      | some pw =>
        if decimalValue g1 ≠ decimalValue g7 then .error .partMismatch
        else
          match QRDecryption.decode_encrypted_chunk g6 with
          | none => .error .decryptFailed
          | some (encrypted_data, salt, iv) =>
            match decrypt_data P encrypted_data salt iv pw with
            | none => .error .decryptFailed
            | some chunk_content =>
              if calculate_chunk_hash chunk_content ≠ g4 then .error .integrityFailed
              else .ok ⟨decimalValue g1, decimalValue g2, g3, g4, g5, chunk_content, true⟩
    | _ => .error .invalidFormat
  | none =>
    match rxSearch plainPats content with
    | none => .error .invalidFormat
    | some gs =>
      match gs with
      | [g1, g2, g3, g4, g5, g6, g7] =>
        if decimalValue g1 ≠ decimalValue g7 then .error .partMismatch
        else if calculate_chunk_hash g6 ≠ g4 then .error .integrityFailed
        else .ok ⟨decimalValue g1, decimalValue g2, g3, g4, g5, g6, false⟩
      | _ => .error .invalidFormat

/-! ## Reassembly, encrypted tool

`reconstruct_file` (`qr_rebuild_encrypted.py`).  `find_chunk_files` and the
password prompt are CLI concerns: the chunk file contents arrive as a list
(in the sorted order the source produces) and the password as a parameter.
The source stores parsed chunks in a dict keyed by part number
(re-insertion overwrites), takes filename, declared total and declared
file hash from the first parsed record and only prints warnings when later
records disagree, fails on missing parts with the sorted missing list,
warns about extra parts, joins parts `1..total` in order, checks the file
hash, and only then writes. -/

/-- Python dict insert: overwrite in place, or append a new key. -/
def upsert {α : Type} : List (Nat × α) → Nat → α → List (Nat × α)
  | [], k, v => [(k, v)]
  | (k2, v2) :: rest, k, v =>
    if k2 = k then (k, v) :: rest else (k2, v2) :: upsert rest k v

/-- Outcome of a reconstruction run; only `written` produces an output
file. -/
inductive RebuildResult where
  | parseFailed (e : ParseErr)
  | noChunks
  | missingParts (parts : List Nat)
  | fileHashMismatch (expected calculated : List Char)
  | written (filename output : List Char)
deriving DecidableEq

/-- The phase of `reconstruct_file` after all chunk files parsed
(`verify_only = False`; the interactive overwrite prompt is a CLI
concern). -/
def reconstruct_from_records : List ChunkRecord → RebuildResult
  | [] => .noChunks
  | first :: rest =>
    let records := first :: rest
    let chunks := records.foldl (fun m r => upsert m r.part_num r.content) []
    let expected := List.range' 1 first.total_parts
    let missing := expected.filter (fun i => ¬ (chunks.map Prod.fst).contains i)
    if missing ≠ [] then .missingParts missing
    else
      let reconstructed := (expected.map (fun i => (chunks.lookup i).getD [])).flatten
      let calculated := calculate_file_hash reconstructed
      if calculated ≠ first.file_hash then .fileHashMismatch first.file_hash calculated
      else .written first.filename reconstructed

/-- The parsing loop of `reconstruct_file`: stop at the first
`ValueError`. -/
def parseAllChunks (P : CryptoPrimitives) (password : Option (List Char)) :
    List (List Char) → Except ParseErr (List ChunkRecord)
  | [] => .ok []
  | f :: fs =>
    match parse_chunk_file P password f with
    | .error e => .error e
    | .ok r =>
      match parseAllChunks P password fs with
      | .error e => .error e
      | .ok rs => .ok (r :: rs)

/-- Embeds `reconstruct_file` over the contents of the chunk files: parse each
(returning `False` on the first parse error, with no output written),
then reassemble. -/
def reconstruct_file (P : CryptoPrimitives) (password : Option (List Char))
    (files : List (List Char)) : RebuildResult :=
  match parseAllChunks P password files with
  | .error e => .parseFailed e
  | .ok records => reconstruct_from_records records

/-- The unencrypted generate-then-rebuild pipeline: chunk the content,
frame every chunk as `generate_single_qr_chunk` does, then run
`reconstruct_file` over the payloads. -/
def unencrypted_round_trip (content filename : List Char) : RebuildResult :=
  let chunks := split_at_line_boundaries content MAX_CHUNK_SIZE
  let total := chunks.length
  let fh := calculate_file_hash content
  let payloads := chunks.mapIdx (fun idx chunk =>
    (generate_single_qr_chunk false idPrimitives [] [] [] (idx + 1) chunk filename
      total fh).1)
  reconstruct_file idPrimitives none payloads

/-! ## Reassembly, checksum-verified tool

`qr_rebuild_verified.py`: `parse_chunk_metadata` captures the body between
header and footer, strips its leading and trailing newlines, and leaves
both hash fields optional; `collect_chunks_from_folder` records (but does
not act on) per-chunk hash mismatches; `main` groups records per filename,
refuses on missing parts, joins the bodies of the deduplicated dict sorted
by part number, validates only the file-level hash, and writes unless that
file-level validation fails while verification is enabled.  The model
covers one filename group, post parsing. -/

/-- A record parsed by `parse_chunk_metadata` (hash fields optional in its
regex). -/
structure VChunk where
  part_num : Nat
  total_parts : Nat
  filename : List Char
  body : List Char
  chunk_hash : Option (List Char)
  file_hash : Option (List Char)
deriving DecidableEq

/-- Embeds `validate_file_integrity(chunks, reconstructed_content)`: fail when
the declared file hashes disagree, succeed vacuously when none is
declared, else compare the declared hash with the hash of the
reconstructed content. -/
def validate_file_integrity (chunks : List VChunk) (reconstructed : List Char) : Bool :=
  if chunks = [] then true
  else
    let hashes := (chunks.filterMap VChunk.file_hash).dedup
    if 1 < hashes.length then false
    else
      match hashes with
      | [] => true
      | h :: _ => calculate_file_hash reconstructed = h

/-- The per-chunk integrity errors recorded (and merely reported) by
`collect_chunks_from_folder` when verification is on. -/
def chunk_integrity_errors (chunks : List VChunk) : List Nat :=
  (chunks.filter (fun c =>
    match c.chunk_hash with
    | some h => calculate_chunk_hash c.body ≠ h
    | none => False)).map VChunk.part_num

/-- The `main` flow of `qr_rebuild_verified.py` for one filename group:
`check_chunk_completeness` (dict keyed by part number, expected total from
the first record), missing parts refuse reconstruction; otherwise the dict
items sorted by part number are joined, `validate_file_integrity` runs,
and the file is written (`some`) unless file-level validation failed with
verification enabled.  Per-chunk hash mismatches never stop the write. -/
def rebuild_verified (chunks : List VChunk) (verify_checksums : Bool) : Option (List Char) :=
  match chunks with
  | [] => none
  | _ :: _ =>
    let m := chunks.foldl (fun m c => upsert m c.part_num c) []
    match m with
    | [] => none
    | firstEntry :: _ =>
      let keys := m.map Prod.fst
      let expected_total := firstEntry.2.total_parts
      let missing := (List.range' 1 expected_total).filter (fun i => ¬ keys.contains i)
      if missing ≠ [] then none
      else
        let sortedEntries := m.insertionSort (fun a b => a.1 ≤ b.1)
        let combined := (sortedEntries.map (fun e => e.2.body)).flatten
        let file_valid := validate_file_integrity (m.map Prod.snd) combined
        if ¬ file_valid ∧ verify_checksums then none
        else some combined

/-! ## Claim theorems -/

/-- C2: for every input text `C` and every max chunk size `S`,
concatenating, in order, all chunks returned by
`split_at_line_boundaries(C, S)` yields exactly `C` — no character is
lost, duplicated, or altered by chunking. -/
theorem qr_C2_chunker_concat_identity (C : List Char) (S : Nat) :
    (split_at_line_boundaries C S).flatten = C := by
  unfold split_at_line_boundaries
  rw [chunkAccumulate_flatten, splitlines_flatten]
  rfl

/-- C9: splitting the 15-byte content `"AAAA\nBBBB\nCCCC\n"` with a cap of
6 bytes yields exactly the chunks `"AAAA\n"`, `"BBBB\n"`, `"CCCC\n"` in
that order, and concatenating them reproduces the original 15-byte
string. -/
theorem qr_C9_scenario_A :
    split_at_line_boundaries "AAAA\nBBBB\nCCCC\n".toList 6 =
      ["AAAA\n".toList, "BBBB\n".toList, "CCCC\n".toList] ∧
    (split_at_line_boundaries "AAAA\nBBBB\nCCCC\n".toList 6).flatten =
      "AAAA\nBBBB\nCCCC\n".toList ∧
    ("AAAA\nBBBB\nCCCC\n".toList).length = 15 ∧
    (utf8Encode "AAAA\n".toList).length = 5 ∧
    (utf8Encode ("AAAA\n".toList ++ "BBBB\n".toList)).length = 10 := by
  refine ⟨by decide, by decide, by decide, by decide, by decide⟩

theorem mem_take_of_mem {α : Type} {l : List α} {n : Nat} {a : α} (h : a ∈ l.take n) :
    a ∈ l := List.mem_of_mem_take h

/-- C6: `calculate_chunk_hash body` is the first 16 hex characters of the
SHA-256 hex digest of the UTF-8 encoding of `body`; `calculate_file_hash
content` is the full 64-hex-character digest; both are functions of their
text argument (pure and deterministic by construction); and the record
built by `generate_single_qr_chunk` in encrypted mode carries
`calculate_chunk_hash chunk` of the plaintext chunk. -/
theorem qr_C6_hash_contract (body content chunk filename : List Char) (P : CryptoPrimitives)
    (password : List Char) (salt iv : List Nat) (i total : Nat) (fh : List Char) :
    calculate_chunk_hash body = (sha256hex (utf8Encode body)).take 16 ∧
    calculate_chunk_hash body = (calculate_file_hash body).take 16 ∧
    (calculate_chunk_hash body).length = 16 ∧
    (∀ c ∈ calculate_chunk_hash body, isHexDigit c = true) ∧
    calculate_file_hash content = sha256hex (utf8Encode content) ∧
    (calculate_file_hash content).length = 64 ∧
    (∀ c ∈ calculate_file_hash content, isHexDigit c = true) ∧
    (generate_single_qr_chunk true P password salt iv i chunk filename total fh).2 =
      calculate_chunk_hash chunk ∧
    (generate_single_qr_chunk true P password salt iv i chunk filename total fh).1 =
      makeEncHeader i total filename (calculate_chunk_hash chunk) fh ++
        QRCrypto.encode_encrypted_chunk (encrypt_data P chunk password salt iv).1 salt iv ++
        makeEncFooter i := by
  refine ⟨rfl, rfl, calculate_chunk_hash_length body, ?_, rfl,
    calculate_file_hash_length content, ?_, rfl, rfl⟩
  · intro c hc
    exact sha256hex_all_hex _ c (mem_take_of_mem hc)
  · intro c hc
    exact sha256hex_all_hex _ c hc

set_option linter.unusedVariables false in
/-- C3: for every text `C` and every password of at least 8 characters,
decrypting the output of `encrypt_data(C, P)` with the same password,
using the salt and iv that `encrypt_data` returned, yields exactly `C`;
and the PKCS7 padding added by `encrypt_data` is exactly removed by the
unpadding step of `decrypt_data` (stated for every byte string).  The
cipher transforms are the `cryptography` library's AES-256-CBC, abstract
here, assumed to satisfy the CBC inverse contract. -/
theorem qr_C3_encrypted_round_trip (P : CryptoPrimitives) (hP : CipherInverts P)
    (C password : List Char) (hpw : 8 ≤ password.length) (salt iv : List Nat) :
    decrypt_data P (encrypt_data P C password salt iv).1
      (encrypt_data P C password salt iv).2.1
      (encrypt_data P C password salt iv).2.2 password = some C ∧
    (∀ data_bytes : List Nat,
      (pkcs7Pad data_bytes).getLast? = some (16 - data_bytes.length % 16) ∧
      (pkcs7Pad data_bytes).take
        ((pkcs7Pad data_bytes).length - (16 - data_bytes.length % 16)) = data_bytes) := by
  exact ⟨decrypt_encrypt_data P hP C password salt iv, fun bs => pkcs7_unpad_pad bs⟩

/-- Witness for C3 at the identity cipher primitives, `C = "hi"` and the
8-character password `"password"`. -/
theorem qr_C3_encrypted_round_trip_witness :
    CipherInverts idPrimitives ∧ 8 ≤ ("password".toList).length ∧
    decrypt_data idPrimitives
      (encrypt_data idPrimitives "hi".toList "password".toList [] []).1
      (encrypt_data idPrimitives "hi".toList "password".toList [] []).2.1
      (encrypt_data idPrimitives "hi".toList "password".toList [] []).2.2
      "password".toList = some "hi".toList :=
  ⟨fun _ _ _ => rfl, by decide,
    (qr_C3_encrypted_round_trip idPrimitives (fun _ _ _ => rfl) "hi".toList
      "password".toList (by decide) [] []).1⟩

/-- C10: for every password, salt and iv, `decrypt_data` on an empty
ciphertext returns no value — the PKCS7 unpadding step reads the last byte
of an empty buffer (Python `padded_data[-1]` raises IndexError) — whereas
on the ciphertext produced by `encrypt_data` the unpadding never fails:
the buffer fed to the cipher is non-empty, its length is a multiple of 16,
and the full decryption returns a value. -/
theorem qr_C10_decrypt_empty (P : CryptoPrimitives) (hnil : CipherNilToNil P)
    (hP : CipherInverts P) (C password : List Char) (salt iv salt2 iv2 : List Nat) :
    decrypt_data P [] salt iv password = none ∧
    (pkcs7Pad (utf8Encode C)).length % 16 = 0 ∧
    pkcs7Pad (utf8Encode C) ≠ [] ∧
    decrypt_data P (encrypt_data P C password salt2 iv2).1 salt2 iv2 password ≠ none := by
  refine ⟨?_, (pkcs7Pad_length (utf8Encode C)).1, (pkcs7Pad_length (utf8Encode C)).2, ?_⟩
  · unfold decrypt_data
    simp only [hnil (P.deriveKey password salt) iv]
    rfl
  · have h := decrypt_encrypt_data P hP C password salt2 iv2
    simp only [encrypt_data] at h ⊢
    rw [h]
    exact Option.some_ne_none C

/-- Witness for C10 at the identity cipher primitives. -/
theorem qr_C10_decrypt_empty_witness :
    CipherNilToNil idPrimitives ∧ CipherInverts idPrimitives ∧
    decrypt_data idPrimitives [] [] [] "pw".toList = none ∧
    decrypt_data idPrimitives (encrypt_data idPrimitives "hi".toList "pw".toList [] []).1
      [] [] "pw".toList ≠ none := by
  have h := qr_C10_decrypt_empty idPrimitives (fun _ _ => rfl) (fun _ _ _ => rfl)
    "hi".toList "pw".toList [] [] [] []
  exact ⟨fun _ _ => rfl, fun _ _ _ => rfl, h.1, h.2.2.2⟩

/-- C8 (amended): the transport codec round-trips — decoding the encoding
of `salt(16) || iv(16) || ciphertext` returns the original triple — for
both decoder copies; and the rebuild tool's decoder
(`QRDecryption.decode_encrypted_chunk`) fails whenever the base64-decoded
input is shorter than 32 bytes.  (The generator-side copy
`QRCrypto.decode_encrypted_chunk` performs no such validation, see the
counterexample.) -/
theorem qr_C8_transport_codec (ciphertext salt iv : List Nat)
    (hs : salt.length = 16) (hi : iv.length = 16)
    (hbs : ∀ b ∈ salt, b < 256) (hbi : ∀ b ∈ iv, b < 256)
    (hbc : ∀ b ∈ ciphertext, b < 256) :
    QRDecryption.decode_encrypted_chunk (QRCrypto.encode_encrypted_chunk ciphertext salt iv) =
      some (ciphertext, salt, iv) ∧
    QRCrypto.decode_encrypted_chunk (QRCrypto.encode_encrypted_chunk ciphertext salt iv) =
      some (ciphertext, salt, iv) ∧
    (∀ encoded combined, b64decode encoded = some combined → combined.length < 32 →
      QRDecryption.decode_encrypted_chunk encoded = none) := by
  have hall : ∀ b ∈ salt ++ iv ++ ciphertext, b < 256 := by
    intro b hb
    rcases List.mem_append.mp hb with h | h
    · rcases List.mem_append.mp h with h2 | h2
      · exact hbs b h2
      · exact hbi b h2
    · exact hbc b h
  have hdec : b64decode (b64encode (salt ++ iv ++ ciphertext)) =
      some (salt ++ iv ++ ciphertext) := b64decode_b64encode _ hall
  have hlen : (salt ++ iv ++ ciphertext).length = 32 + ciphertext.length := by
    simp [hs, hi]; omega
  have hassoc : salt ++ iv ++ ciphertext = salt ++ (iv ++ ciphertext) :=
    List.append_assoc salt iv ciphertext
  have htake : (salt ++ iv ++ ciphertext).take 16 = salt := by
    rw [hassoc, ← hs]; exact List.take_left salt _
  have hdrop16 : (salt ++ iv ++ ciphertext).drop 16 = iv ++ ciphertext := by
    rw [hassoc, ← hs]; exact List.drop_left salt _
  have htakeiv : ((salt ++ iv ++ ciphertext).drop 16).take 16 = iv := by
    rw [hdrop16, ← hi]; exact List.take_left iv _
  have hdrop32 : (salt ++ iv ++ ciphertext).drop 32 = ciphertext := by
    rw [show (32 : Nat) = (salt ++ iv).length by simp [hs, hi]]
    exact List.drop_left _ _
  refine ⟨?_, ?_, ?_⟩
  · unfold QRDecryption.decode_encrypted_chunk QRCrypto.encode_encrypted_chunk
    rw [hdec]
    simp only [hlen]
    rw [if_neg (by omega)]
    rw [hdrop32, htake, htakeiv]
  · unfold QRCrypto.decode_encrypted_chunk QRCrypto.encode_encrypted_chunk
    rw [hdec]
    simp only []
    rw [hdrop32, htake, htakeiv]
  · intro encoded combined hc hlt
    unfold QRDecryption.decode_encrypted_chunk
    rw [hc]
    simp only [if_pos hlt]

/-- Witness for C8 at a zero salt and iv and the 3-byte ciphertext
`[1, 2, 3]`, plus a 3-byte short decode. -/
theorem qr_C8_transport_codec_witness :
    QRDecryption.decode_encrypted_chunk
      (QRCrypto.encode_encrypted_chunk [1, 2, 3] (List.replicate 16 0) (List.replicate 16 0)) =
      some ([1, 2, 3], List.replicate 16 0, List.replicate 16 0) ∧
    b64decode "AAAA".toList = some [0, 0, 0] ∧
    QRDecryption.decode_encrypted_chunk "AAAA".toList = none :=
  have h := qr_C8_transport_codec [1, 2, 3] (List.replicate 16 0) (List.replicate 16 0)
    (by decide) (by decide) (by decide) (by decide) (by decide)
  ⟨h.1, by decide, h.2.2 "AAAA".toList [0, 0, 0] (by decide) (by decide)⟩

/-- Counterexample to C8 as stated: the generator-side decoder
`QRCrypto.decode_encrypted_chunk` (`qr_enhanced.py`) does not fail on a
base64 input that decodes to only 3 bytes — it returns truncated slices
instead of raising. -/
theorem qr_C8_counterexample :
    b64decode "AAAA".toList = some [0, 0, 0] ∧
    ([0, 0, 0] : List Nat).length < 32 ∧
    QRCrypto.decode_encrypted_chunk "AAAA".toList = some ([], [0, 0, 0], []) := by
  refine ⟨by decide, by decide, by decide⟩

/-! ## Dictionary lemmas for the reassembly models -/

theorem upsert_keys_mem {α : Type} (m : List (Nat × α)) (k k2 : Nat) (v : α) :
    k2 ∈ (upsert m k v).map Prod.fst ↔ k2 = k ∨ k2 ∈ m.map Prod.fst := by
  induction m with
  | nil => simp [upsert]
  | cons e rest ih =>
    obtain ⟨k1, v1⟩ := e
    by_cases h : k1 = k
    · simp [upsert, h]
    · simp only [upsert, if_neg h, List.map_cons, List.mem_cons, ih]
      tauto

theorem upsert_ne_nil {α : Type} (m : List (Nat × α)) (k : Nat) (v : α) :
    upsert m k v ≠ [] := by
  cases m with
  | nil => simp [upsert]
  | cons e rest =>
    obtain ⟨k1, v1⟩ := e
    by_cases h : k1 = k <;> simp [upsert, h]

theorem mem_upsert {α : Type} (m : List (Nat × α)) (k : Nat) (v : α) (e : Nat × α)
    (he : e ∈ upsert m k v) : e = (k, v) ∨ e ∈ m := by
  induction m with
  | nil => simpa [upsert] using he
  | cons e2 rest ih =>
    obtain ⟨k1, v1⟩ := e2
    by_cases h : k1 = k
    · simp only [upsert, if_pos h, List.mem_cons] at he
      rcases he with h2 | h2
      · exact Or.inl h2
      · exact Or.inr (List.mem_cons_of_mem _ h2)
    · simp only [upsert, if_neg h, List.mem_cons] at he
      rcases he with h2 | h2
      · exact Or.inr (by simp [h2])
      · rcases ih h2 with h3 | h3
        · exact Or.inl h3
        · exact Or.inr (List.mem_cons_of_mem _ h3)

theorem foldl_upsert_keys {β α : Type} (key : β → Nat) (val : β → α) (items : List β) :
    ∀ (m0 : List (Nat × α)) (k : Nat),
    (k ∈ ((items.foldl (fun m x => upsert m (key x) (val x)) m0).map Prod.fst) ↔
      k ∈ m0.map Prod.fst ∨ k ∈ items.map key) := by
  induction items with
  | nil => simp
  | cons x rest ih =>
    intro m0 k
    simp only [List.foldl_cons, List.map_cons, List.mem_cons]
    rw [ih, upsert_keys_mem]
    tauto

theorem foldl_upsert_ne_nil {β α : Type} (key : β → Nat) (val : β → α) (items : List β) :
    ∀ (m0 : List (Nat × α)), m0 ≠ [] ∨ items ≠ [] →
    items.foldl (fun m x => upsert m (key x) (val x)) m0 ≠ [] := by
  induction items with
  | nil =>
    intro m0 h
    rcases h with h | h
    · simpa using h
    · simp at h
  | cons x rest ih =>
    intro m0 _
    simp only [List.foldl_cons]
    exact ih _ (Or.inl (upsert_ne_nil m0 (key x) (val x)))

theorem mem_foldl_upsert {β α : Type} (key : β → Nat) (val : β → α) (items : List β) :
    ∀ (m0 : List (Nat × α)) (e : Nat × α),
    e ∈ items.foldl (fun m x => upsert m (key x) (val x)) m0 →
    e ∈ m0 ∨ e.2 ∈ items.map val := by
  induction items with
  | nil => simp
  | cons x rest ih =>
    intro m0 e he
    simp only [List.foldl_cons] at he
    rcases ih _ e he with h | h
    · rcases mem_upsert m0 (key x) (val x) e h with h2 | h2
      · right; simp [h2]
      · exact Or.inl h2
    · right; simp [h]

/-- View of a parsed encrypted-tool record as a verified-tool record (both
hash fields present). -/
def recordToVChunk (r : ChunkRecord) : VChunk :=
  ⟨r.part_num, r.total_parts, r.filename, r.content, some r.chunk_hash, some r.file_hash⟩

/-- C4: for every collection of parsed records for one filename declaring
total `N`, if any index in `{1..N}` is absent, reconstruction fails: the
encrypted tool reports exactly the ascending list of the missing indices
and writes nothing, and the verified tool likewise refuses to write. -/
theorem qr_C4_missing_parts (records : List ChunkRecord) (N : Nat) (fn : List Char)
    (hne : records ≠ [])
    (hfn : ∀ r ∈ records, r.filename = fn)
    (htot : ∀ r ∈ records, r.total_parts = N)
    (hmiss : ∃ i, 1 ≤ i ∧ i ≤ N ∧ i ∉ records.map ChunkRecord.part_num) :
    ∃ L, reconstruct_from_records records = .missingParts L ∧
      L ≠ [] ∧ List.Pairwise (· < ·) L ∧
      (∀ i, i ∈ L ↔ (1 ≤ i ∧ i ≤ N ∧ i ∉ records.map ChunkRecord.part_num)) ∧
      (∀ fn2 out, reconstruct_from_records records ≠ .written fn2 out) ∧
      (∀ v, rebuild_verified (records.map recordToVChunk) v = none) := by
  obtain ⟨first, rest, rfl⟩ : ∃ f r, records = f :: r := by
    cases records with
    | nil => exact absurd rfl hne
    | cons f r => exact ⟨f, r, rfl⟩
  have htotN : first.total_parts = N := htot first (by simp)
  -- membership in the missing list of the encrypted tool
  have hchar : ∀ i, i ∈ (List.range' 1 first.total_parts).filter
      (fun i => ¬ (((first :: rest).foldl
        (fun m r => upsert m r.part_num r.content) []).map Prod.fst).contains i) ↔
      (1 ≤ i ∧ i ≤ N ∧ i ∉ (first :: rest).map ChunkRecord.part_num) := by
    intro i
    rw [List.mem_filter]
    rw [htotN]
    simp only [List.mem_range'_1, decide_eq_true_eq, List.contains, List.elem_iff]
    rw [foldl_upsert_keys ChunkRecord.part_num ChunkRecord.content (first :: rest) [] i]
    simp only [List.map_nil, List.not_mem_nil, false_or]
    constructor
    · rintro ⟨⟨h1, h2⟩, h3⟩
      exact ⟨h1, by omega, h3⟩
    · rintro ⟨h1, h2, h3⟩
      exact ⟨⟨h1, by omega⟩, h3⟩
  obtain ⟨j, hj1, hj2, hj3⟩ := hmiss
  have hmem : j ∈ (List.range' 1 first.total_parts).filter
      (fun i => ¬ (((first :: rest).foldl
        (fun m r => upsert m r.part_num r.content) []).map Prod.fst).contains i) :=
    (hchar j).mpr ⟨hj1, hj2, hj3⟩
  have hnil : (List.range' 1 first.total_parts).filter
      (fun i => ¬ (((first :: rest).foldl
        (fun m r => upsert m r.part_num r.content) []).map Prod.fst).contains i) ≠ [] := by
    intro h
    rw [h] at hmem
    exact List.not_mem_nil j hmem
  have hres : reconstruct_from_records (first :: rest) = .missingParts
      ((List.range' 1 first.total_parts).filter
      (fun i => ¬ (((first :: rest).foldl
        (fun m r => upsert m r.part_num r.content) []).map Prod.fst).contains i)) := by
    simp only [reconstruct_from_records]
    rw [if_pos hnil]
  refine ⟨_, hres, hnil, ?_, ?_, ?_, ?_⟩
  · exact List.Pairwise.filter _ (by simpa using List.pairwise_lt_range' 1 first.total_parts 1)
  · exact hchar
  · intro fn2 out h
    rw [hres] at h
    exact RebuildResult.noConfusion h
  · -- the verified tool also refuses
    intro v
    have hkeys : ∀ k, k ∈ (((first :: rest).map recordToVChunk).foldl
        (fun m c => upsert m c.part_num c) []).map Prod.fst ↔
        k ∈ (first :: rest).map ChunkRecord.part_num := by
      intro k
      rw [foldl_upsert_keys VChunk.part_num (fun c => c) _ [] k]
      simp only [List.map_nil, List.not_mem_nil, false_or, List.map_map]
      constructor
      · intro h
        simpa [Function.comp, recordToVChunk] using h
      · intro h
        simpa [Function.comp, recordToVChunk] using h
    have hm_ne : (((first :: rest).map recordToVChunk).foldl
        (fun m c => upsert m c.part_num c) []) ≠ [] :=
      foldl_upsert_ne_nil VChunk.part_num (fun c => c) _ [] (Or.inr (by simp))
    obtain ⟨fe, m2, hM⟩ : ∃ fe m2, (((first :: rest).map recordToVChunk).foldl
        (fun m c => upsert m c.part_num c) []) = fe :: m2 := by
      rcases hq : (((first :: rest).map recordToVChunk).foldl
          (fun m c => upsert m c.part_num c) []) with _ | ⟨fe, m2⟩
      · exact absurd hq hm_ne
      · exact ⟨fe, m2, hq⟩
    have hfe_total : fe.2.total_parts = N := by
      have hfe_mem : fe ∈ (((first :: rest).map recordToVChunk).foldl
          (fun m c => upsert m c.part_num c) []) := by rw [hM]; simp
      rcases mem_foldl_upsert VChunk.part_num (fun c => c) _ [] fe hfe_mem with h | h
      · simp at h
      · have h2 : fe.2 ∈ (first :: rest).map recordToVChunk := by simpa using h
        obtain ⟨r, hr, hr2⟩ := List.mem_map.mp h2
        rw [← hr2]
        simp [recordToVChunk, htot r hr]
    have hmiss2 : (List.range' 1 fe.2.total_parts).filter
        (fun i => ¬ ((((first :: rest).map recordToVChunk).foldl
          (fun m c => upsert m c.part_num c) []).map Prod.fst).contains i) ≠ [] := by
      intro h
      have hj : j ∈ (List.range' 1 fe.2.total_parts).filter
          (fun i => ¬ ((((first :: rest).map recordToVChunk).foldl
            (fun m c => upsert m c.part_num c) []).map Prod.fst).contains i) := by
        rw [List.mem_filter]
        constructor
        · rw [List.mem_range'_1, hfe_total]
          omega
        · simp only [decide_eq_true_eq, List.contains, List.elem_iff]
          rw [hkeys j]
          exact hj3
      rw [h] at hj
      exact List.not_mem_nil j hj
    have hM2 : ((recordToVChunk first :: rest.map recordToVChunk).foldl
        (fun m c => upsert m c.part_num c) ([] : List (Nat × VChunk))) = fe :: m2 := by
      simpa using hM
    simp only [rebuild_verified, List.map_cons]
    simp only [List.map_cons] at hmiss2
    simp only [hM2] at hmiss2 ⊢
    rw [if_pos hmiss2]

/-- Witness for C4: a 3-chunk set holding only parts 1 and 3 fails with
exactly `missing_parts = [2]` in both tools. -/
theorem qr_C4_missing_parts_witness :
    (∃ L, reconstruct_from_records
      [⟨1, 3, "f.txt".toList, "h1".toList, "fh".toList, "aa".toList, false⟩,
       ⟨3, 3, "f.txt".toList, "h3".toList, "fh".toList, "cc".toList, false⟩] =
        .missingParts L ∧
      L ≠ [] ∧ List.Pairwise (· < ·) L ∧
      (∀ i, i ∈ L ↔ (1 ≤ i ∧ i ≤ 3 ∧ i ∉
        ([⟨1, 3, "f.txt".toList, "h1".toList, "fh".toList, "aa".toList, false⟩,
          ⟨3, 3, "f.txt".toList, "h3".toList, "fh".toList, "cc".toList, false⟩] :
            List ChunkRecord).map ChunkRecord.part_num)) ∧
      (∀ fn2 out, reconstruct_from_records
        [⟨1, 3, "f.txt".toList, "h1".toList, "fh".toList, "aa".toList, false⟩,
         ⟨3, 3, "f.txt".toList, "h3".toList, "fh".toList, "cc".toList, false⟩] ≠
          .written fn2 out) ∧
      (∀ v, rebuild_verified
        (([⟨1, 3, "f.txt".toList, "h1".toList, "fh".toList, "aa".toList, false⟩,
           ⟨3, 3, "f.txt".toList, "h3".toList, "fh".toList, "cc".toList, false⟩] :
             List ChunkRecord).map recordToVChunk) v = none)) ∧
    reconstruct_from_records
      [⟨1, 3, "f.txt".toList, "h1".toList, "fh".toList, "aa".toList, false⟩,
       ⟨3, 3, "f.txt".toList, "h3".toList, "fh".toList, "cc".toList, false⟩] =
        .missingParts [2] :=
  ⟨qr_C4_missing_parts _ 3 "f.txt".toList (by decide) (by decide) (by decide)
    ⟨2, by decide, by decide, by decide⟩, by decide⟩

theorem parseAllChunks_error (P : CryptoPrimitives) (pw : Option (List Char)) :
    ∀ (files : List (List Char)) (f : List Char), f ∈ files →
    (∃ e, parse_chunk_file P pw f = .error e) →
    ∃ e2, parseAllChunks P pw files = .error e2 := by
  intro files
  induction files with
  | nil => simp
  | cons g gs ih =>
    intro f hf he
    rcases List.mem_cons.mp hf with rfl | hf2
    · obtain ⟨e, he⟩ := he
      exact ⟨e, by simp [parseAllChunks, he]⟩
    · cases hq : parse_chunk_file P pw g with
      | error e2 => exact ⟨e2, by simp [parseAllChunks, hq]⟩
      | ok r =>
        obtain ⟨e2, h2⟩ := ih f hf2 he
        exact ⟨e2, by simp [parseAllChunks, hq, h2]⟩

/-- C5 (amended): in `qr_rebuild_encrypted.py`, a record whose body does
not hash to its declared `chunk_hash` makes `parse_chunk_file` raise a
ChunkIntegrityError-style `ValueError`, and any parse error makes
`reconstruct_file` fail with no output written.  In
`qr_rebuild_verified.py` the mismatch is only recorded: the write is
guarded solely by the file-level hash validation — so a modified body is
still detected (the file hash no longer matches), but a tampered declared
`chunk_hash` with an intact body does not prevent the write (see the
counterexample). -/
theorem qr_C5_chunk_integrity_amended :
    (∀ (P : CryptoPrimitives) (pw : Option (List Char))
      (fc g1 g2 g3 g4 g5 g6 g7 : List Char),
      rxSearch encryptedPats (pythonStrip fc) = none →
      rxSearch plainPats (pythonStrip fc) = some [g1, g2, g3, g4, g5, g6, g7] →
      decimalValue g1 = decimalValue g7 →
      calculate_chunk_hash g6 ≠ g4 →
      parse_chunk_file P pw fc = .error .integrityFailed) ∧
    (∀ (P : CryptoPrimitives) (pw : Option (List Char)) (files : List (List Char))
      (f : List Char), f ∈ files → (∃ e, parse_chunk_file P pw f = .error e) →
      (∃ e2, reconstruct_file P pw files = .parseFailed e2) ∧
      (∀ fn out, reconstruct_file P pw files ≠ .written fn out)) ∧
    (∀ (chunks : List VChunk) (out : List Char), rebuild_verified chunks true = some out →
      validate_file_integrity
        ((chunks.foldl (fun m c => upsert m c.part_num c) []).map Prod.snd) out = true) := by
  refine ⟨?_, ?_, ?_⟩
  · intro P pw fc g1 g2 g3 g4 g5 g6 g7 henc hplain heq hne
    unfold parse_chunk_file
    simp only [henc, hplain]
    rw [if_neg (by simp [heq]), if_pos hne]
  · intro P pw files f hf he
    obtain ⟨e2, h2⟩ := parseAllChunks_error P pw files f hf he
    have hres : reconstruct_file P pw files = .parseFailed e2 := by
      unfold reconstruct_file
      rw [h2]
    exact ⟨⟨e2, hres⟩, by intro fn out h; rw [hres] at h; exact RebuildResult.noConfusion h⟩
  · intro chunks out h
    cases chunks with
    | nil => simp [rebuild_verified] at h
    | cons c cs =>
      simp only [rebuild_verified] at h
      rcases hm : (c :: cs).foldl (fun m x => upsert m x.part_num x) [] with _ | ⟨fe, m2⟩
      · exact absurd hm (foldl_upsert_ne_nil VChunk.part_num (fun x => x) _ [] (Or.inr (by simp)))
      · rw [hm] at h
        simp only at h
        by_cases hmiss : (List.range' 1 fe.2.total_parts).filter
            (fun i => ¬ ((fe :: m2).map Prod.fst).contains i) ≠ []
        · rw [if_pos hmiss] at h
          exact Option.noConfusion h
        · rw [if_neg hmiss] at h
          by_cases hval : ¬ validate_file_integrity ((fe :: m2).map Prod.snd)
              (((fe :: m2).insertionSort (fun a b => a.1 ≤ b.1)).map
                (fun e => e.2.body)).flatten = true ∧ True
          · rw [if_pos (by simpa using hval)] at h
            exact Option.noConfusion h
          · rw [if_neg (by simpa using hval)] at h
            have hout : (((fe :: m2).insertionSort (fun a b => a.1 ≤ b.1)).map
                (fun e => e.2.body)).flatten = out := Option.some.inj h
            rw [hm]
            rcases Classical.em (validate_file_integrity ((fe :: m2).map Prod.snd) out = true)
              with hv | hv
            · exact hv
            · exfalso
              apply hval
              refine ⟨?_, trivial⟩
              rw [hout]
              exact hv

set_option maxRecDepth 1000000 in
/-- Witness for C5 at a concrete stored record whose declared
`chunk_hash` (`zz`) does not match its body (`A`). -/
theorem qr_C5_chunk_integrity_amended_witness :
    parse_chunk_file idPrimitives none
      "--BEGIN part_01_of_01 file: f.txt chunk_hash: zz file_hash: ww--\nA\n--END part_01--".toList
      = .error .integrityFailed ∧
    (∃ e2, reconstruct_file idPrimitives none
      ["--BEGIN part_01_of_01 file: f.txt chunk_hash: zz file_hash: ww--\nA\n--END part_01--".toList]
      = .parseFailed e2) ∧
    (∀ fn out, reconstruct_file idPrimitives none
      ["--BEGIN part_01_of_01 file: f.txt chunk_hash: zz file_hash: ww--\nA\n--END part_01--".toList]
      ≠ .written fn out) ∧
    validate_file_integrity
      ((([⟨1, 1, "f.txt".toList, "A".toList, some "0".toList,
          some (calculate_file_hash "A".toList)⟩] : List VChunk).foldl
        (fun m c => upsert m c.part_num c) []).map Prod.snd) "A".toList = true := by
  have hparse := qr_C5_chunk_integrity_amended.1 idPrimitives none
    "--BEGIN part_01_of_01 file: f.txt chunk_hash: zz file_hash: ww--\nA\n--END part_01--".toList
    "01".toList "01".toList "f.txt".toList "zz".toList "ww".toList "A".toList "01".toList
    (by decide) (by decide) (by decide) (by decide)
  have hrec := qr_C5_chunk_integrity_amended.2.1 idPrimitives none
    ["--BEGIN part_01_of_01 file: f.txt chunk_hash: zz file_hash: ww--\nA\n--END part_01--".toList]
    "--BEGIN part_01_of_01 file: f.txt chunk_hash: zz file_hash: ww--\nA\n--END part_01--".toList
    (by simp) ⟨.integrityFailed, hparse⟩
  have hverif := qr_C5_chunk_integrity_amended.2.2
    [⟨1, 1, "f.txt".toList, "A".toList, some "0".toList,
      some (calculate_file_hash "A".toList)⟩] "A".toList (by decide)
  exact ⟨hparse, hrec.1, hrec.2, hverif⟩

set_option maxRecDepth 1000000 in
/-- Counterexample to C5 as stated: in `qr_rebuild_verified.py` a record
whose body does not hash to its declared `chunk_hash` is reported as an
integrity error, yet the file is reconstructed and written because the
file-level hash still matches. -/
theorem qr_C5_counterexample :
    calculate_chunk_hash "A".toList ≠ "0".toList ∧
    chunk_integrity_errors
      [⟨1, 1, "f.txt".toList, "A".toList, some "0".toList,
        some (calculate_file_hash "A".toList)⟩] = [1] ∧
    rebuild_verified
      [⟨1, 1, "f.txt".toList, "A".toList, some "0".toList,
        some (calculate_file_hash "A".toList)⟩] true = some "A".toList := by
  refine ⟨by decide, by decide, by decide⟩

theorem one_lt_length_of_two_mem {α : Type} {l : List α} {a b : α}
    (ha : a ∈ l) (hb : b ∈ l) (hne : a ≠ b) : 1 < l.length := by
  cases l with
  | nil => simp at ha
  | cons x xs =>
    cases xs with
    | nil =>
      simp only [List.mem_cons, List.not_mem_nil, or_false] at ha hb
      exact absurd (ha.trans hb.symm) hne
    | cons y ys => simp

theorem foldl_upsert_congr : ∀ (rs rs' : List ChunkRecord),
    rs.map (fun x => (x.part_num, x.content)) = rs'.map (fun x => (x.part_num, x.content)) →
    ∀ m0, rs.foldl (fun m r => upsert m r.part_num r.content) m0 =
      rs'.foldl (fun m r => upsert m r.part_num r.content) m0 := by
  intro rs
  induction rs with
  | nil =>
    intro rs' h m0
    cases rs' with
    | nil => rfl
    | cons y ys => simp at h
  | cons x xs ih =>
    intro rs' h m0
    cases rs' with
    | nil => simp at h
    | cons y ys =>
      simp only [List.map_cons, List.cons.injEq, Prod.mk.injEq] at h
      obtain ⟨⟨hk, hv⟩, ht⟩ := h
      simp only [List.foldl_cons]
      rw [hk, hv]
      exact ih ys ht _

/-- C7 (amended): in `qr_rebuild_verified.py`, records for one filename
that disagree on their declared `file_hash` make `validate_file_integrity`
fail (so nothing is written); but in `qr_rebuild_encrypted.py`,
`reconstruct_file` only prints warnings on `total` or `file_hash`
disagreements and proceeds with the first record's values: its outcome is
unchanged by any alteration of the metadata of the non-first records, and
it can succeed and write output despite the disagreement (see the
counterexample). -/
theorem qr_C7_metadata_amended :
    (∀ (chunks : List VChunk) (rc : List Char) (c1 c2 : VChunk) (h1 h2 : List Char),
      c1 ∈ chunks → c2 ∈ chunks → c1.file_hash = some h1 → c2.file_hash = some h2 →
      h1 ≠ h2 → validate_file_integrity chunks rc = false) ∧
    (∀ (r : ChunkRecord) (rs rs' : List ChunkRecord),
      rs.map (fun x => (x.part_num, x.content)) = rs'.map (fun x => (x.part_num, x.content)) →
      reconstruct_from_records (r :: rs) = reconstruct_from_records (r :: rs')) := by
  constructor
  · intro chunks rc c1 c2 h1 h2 hc1 hc2 hh1 hh2 hne
    have hnonempty : chunks ≠ [] := by
      intro h; rw [h] at hc1; exact List.not_mem_nil c1 hc1
    have hm1 : h1 ∈ (chunks.filterMap VChunk.file_hash).dedup :=
      List.mem_dedup.mpr (List.mem_filterMap.mpr ⟨c1, hc1, hh1⟩)
    have hm2 : h2 ∈ (chunks.filterMap VChunk.file_hash).dedup :=
      List.mem_dedup.mpr (List.mem_filterMap.mpr ⟨c2, hc2, hh2⟩)
    have hlen : 1 < (chunks.filterMap VChunk.file_hash).dedup.length :=
      one_lt_length_of_two_mem hm1 hm2 hne
    unfold validate_file_integrity
    rw [if_neg hnonempty]
    simp only [if_pos hlen]
  · intro r rs rs' h
    simp only [reconstruct_from_records]
    rw [foldl_upsert_congr (r :: rs) (r :: rs') (by simp [h]) []]

set_option maxRecDepth 1000000 in
/-- Witness for C7: two records with distinct declared file hashes make
the verified tool's validation fail, and altering the second record's
declared total and file hash leaves the encrypted tool's outcome
untouched. -/
theorem qr_C7_metadata_amended_witness :
    validate_file_integrity
      [⟨1, 2, "f.txt".toList, "A".toList, none, some "aa".toList⟩,
       ⟨2, 2, "f.txt".toList, "B".toList, none, some "bb".toList⟩] "AB".toList = false ∧
    reconstruct_from_records
      [⟨1, 2, "f.txt".toList, "h1".toList, "fh".toList, "A".toList, false⟩,
       ⟨2, 2, "f.txt".toList, "h2".toList, "fh".toList, "B".toList, false⟩] =
    reconstruct_from_records
      [⟨1, 2, "f.txt".toList, "h1".toList, "fh".toList, "A".toList, false⟩,
       ⟨2, 9, "f.txt".toList, "h2".toList, "zz".toList, "B".toList, false⟩] :=
  ⟨qr_C7_metadata_amended.1 _ "AB".toList
    ⟨1, 2, "f.txt".toList, "A".toList, none, some "aa".toList⟩
    ⟨2, 2, "f.txt".toList, "B".toList, none, some "bb".toList⟩
    "aa".toList "bb".toList (by decide) (by decide) (by decide) (by decide) (by decide),
   qr_C7_metadata_amended.2
    ⟨1, 2, "f.txt".toList, "h1".toList, "fh".toList, "A".toList, false⟩
    [⟨2, 2, "f.txt".toList, "h2".toList, "fh".toList, "B".toList, false⟩]
    [⟨2, 9, "f.txt".toList, "h2".toList, "zz".toList, "B".toList, false⟩] (by decide)⟩

set_option maxRecDepth 1000000 in
/-- Counterexample to C7 as stated: two parsed records for the same
filename declaring different `total` values (1 versus 2) and different
`file_hash` values, yet `qr_rebuild_encrypted.reconstruct_file` resolves
the disagreement silently with the first record's values and writes
output. -/
theorem qr_C7_counterexample :
    (1 : Nat) ≠ 2 ∧
    calculate_file_hash "A\n".toList ≠ "deadbeef".toList ∧
    reconstruct_from_records
      [⟨1, 1, "f.txt".toList, "h1".toList, calculate_file_hash "A\n".toList, "A\n".toList,
        false⟩,
       ⟨2, 2, "f.txt".toList, "h2".toList, "deadbeef".toList, "B".toList, false⟩] =
      .written "f.txt".toList "A\n".toList := by
  refine ⟨by decide, by decide, by decide⟩

set_option maxRecDepth 1000000 in
/-- C1 fails on the code: the generator frames a record as
`header + chunk + footer` with no newline before the footer, while the
parser regex demands `\n--END` and re-captures the body without that
newline.  A chunk that does not end in a newline (content `"hi"`) produces
a record the parser rejects outright; a chunk that does end in a newline
(content `"hi\n"`) parses, but the captured body lost its final newline,
so the chunk-hash check fails.  Either way the unencrypted
generate-then-rebuild pipeline fails and never reproduces the content. -/
theorem qr_C1_round_trip_broken :
    unencrypted_round_trip "hi".toList "f.txt".toList = .parseFailed .invalidFormat ∧
    unencrypted_round_trip "hi\n".toList "f.txt".toList = .parseFailed .integrityFailed ∧
    (∀ fn out, unencrypted_round_trip "hi".toList "f.txt".toList ≠ .written fn out) ∧
    (∀ fn out, unencrypted_round_trip "hi\n".toList "f.txt".toList ≠ .written fn out) := by
  have h1 : unencrypted_round_trip "hi".toList "f.txt".toList =
      .parseFailed .invalidFormat := by decide
  have h2 : unencrypted_round_trip "hi\n".toList "f.txt".toList =
      .parseFailed .integrityFailed := by decide
  refine ⟨h1, h2, ?_, ?_⟩
  · intro fn out h
    rw [h1] at h
    exact RebuildResult.noConfusion h
  · intro fn out h
    rw [h2] at h
    exact RebuildResult.noConfusion h
